import Mathlib

/-!
Verification of the Ollama-Markov incremental training/storage pipeline.

This file shallowly embeds the core of the repository:
  * `ollama_markov/model/markov.py` (`MarkovModel`: `train`, `get_distribution`,
    `_apply_length_bias`, `_sample_token`, `generate`, `load_from_database`),
  * `ollama_markov/storage/database.py` (`Database`: the `transitions` ledger,
    the compacted `states` cache, `add_transitions_batch`, `compact`,
    `add_message`, `mark_message_processed`, `get_unprocessed_messages`),
  * the training/flush phase of `Generator.generate_from_prompt`
    (`ollama_markov/model/generator.py`) and the per-message body of
    `BackgroundWorker.process_batch` (`scripts/background_worker.py`).

Python dicts are insertion-ordered, so they are embedded as association lists
where updating an existing key keeps its position and a new key is appended at
the end.  Python ints are embedded as `Int` (counts) or `Nat` (indices), float
probabilities as `ℚ`, the float functions `math.exp` and `**` as explicit
function parameters, and `random.random()` values as explicit `ℚ` arguments.
-/

namespace OllamaMarkov

/-- Lookup in an association list (python `d[k]` / `k in d`): first match wins
(keys are unique in every list built by the operations below, as in a dict). -/
def getA {κ α : Type} [DecidableEq κ] : List (κ × α) → κ → Option α
  | [], _ => none
  | p :: ps, k => if p.1 = k then some p.2 else getA ps k

/-- Assignment `d[k] = v` on an association list: an existing key keeps its
position (python dicts preserve insertion order on update), a missing key is
appended at the end. -/
def setA {κ α : Type} [DecidableEq κ] : List (κ × α) → κ → α → List (κ × α)
  | [], k, v => [(k, v)]
  | p :: ps, k, v => if p.1 = k then (k, v) :: ps else p :: setA ps k v

theorem getA_setA_self {κ α : Type} [DecidableEq κ] (l : List (κ × α)) (k : κ) (v : α) :
    getA (setA l k v) k = some v := by
  induction l with
  | nil => simp [getA, setA]
  | cons p ps ih =>
    by_cases h : p.1 = k
    · simp [getA, setA, h]
    · simp [getA, setA, h, ih]

theorem getA_setA_ne {κ α : Type} [DecidableEq κ] (l : List (κ × α)) (k k' : κ) (v : α)
    (h : k' ≠ k) : getA (setA l k v) k' = getA l k' := by
  induction l with
  | nil => simp [setA, getA, Ne.symm h]
  | cons p ps ih =>
    by_cases hp : p.1 = k
    · simp [setA, getA, hp, Ne.symm h]
    · simp [setA, getA, hp, ih]

theorem getA_append_some {κ α : Type} [DecidableEq κ] {l : List (κ × α)} {k : κ} {v : α}
    (l' : List (κ × α)) (h : getA l k = some v) : getA (l ++ l') k = some v := by
  induction l with
  | nil => simp [getA] at h
  | cons p ps ih =>
    by_cases hp : p.1 = k
    · simp only [getA, hp, if_pos] at h
      simp [getA, hp, h]
    · simp only [getA, hp, if_neg, if_false] at h
      simp [getA, hp, ih h]

theorem getA_append_none {κ α : Type} [DecidableEq κ] {l : List (κ × α)} {k : κ}
    (l' : List (κ × α)) (h : getA l k = none) : getA (l ++ l') k = getA l' k := by
  induction l with
  | nil => simp
  | cons p ps ih =>
    by_cases hp : p.1 = k
    · simp [getA, hp] at h
    · simp only [getA, hp, if_neg, if_false] at h
      simp [getA, hp, ih h]

/-! ### The Sequence Model (`ollama_markov/model/markov.py`) -/

/-- The synthetic start-of-sequence sentinel token. -/
def startTok : String := "<START>"

/-- The synthetic end-of-sequence sentinel token. -/
def endTok : String := "<END>"

/-- In-memory transition counts: `state → (next token → count)`, embedding the
nested `defaultdict` `MarkovModel.transitions` (only materialized entries are
stored; a missing key reads as count 0). -/
abbrev TransMap : Type := List (String × List (String × Int))

/-- Word-level Markov model (`MarkovModel.__init__`). -/
structure MarkovModel where
  order : Nat
  transitions : TransMap

/-- A freshly initialized model: empty transition map. -/
def emptyModel (order : Nat) : MarkovModel := { order := order, transitions := [] }

/-- The count held for `(state, next)`: 0 when either key is absent
(`defaultdict(int)` semantics). -/
def countT (t : TransMap) (state next : String) : Int :=
  match getA t state with
  | none => 0
  | some inner => (getA inner next).getD 0

/-- One `inner[next] += 1` on a `defaultdict(int)`: increment an existing
entry in place, or append a fresh entry with count 1. -/
def bumpTok (inner : List (String × Int)) (tok : String) : List (String × Int) :=
  match getA inner tok with
  | some c => setA inner tok (c + 1)
  | none => inner ++ [(tok, 1)]

/-- One `self.transitions[state][next_token] += 1` from `MarkovModel.train`. -/
def addTransition (t : TransMap) (state tok : String) : TransMap :=
  match getA t state with
  | some inner => setA t state (bumpTok inner tok)
  | none => t ++ [(state, bumpTok [] tok)]

/-- The padded sequence built by `MarkovModel.train`:
`["<START>"] * (order - 1) + tokens + ["<END>"]`. -/
def fullSequence (order : Nat) (tokens : List String) : List String :=
  List.replicate (order - 1) startTok ++ tokens ++ [endTok]

/-- The state of window `i`: `" ".join(full_sequence[i : i + order - 1])`
(for `order ≥ 1` the python slice is exactly drop-then-take). -/
def windowState (order : Nat) (seq : List String) (i : Nat) : String :=
  " ".intercalate ((seq.drop i).take (order - 1))

/-- The next token of window `i`: `full_sequence[i + order - 1]` (in-range for
every `i` in the training loop when `order ≥ 1`). -/
def windowNext (order : Nat) (seq : List String) (i : Nat) : String :=
  ((seq.drop (i + order - 1)).headD "")

/-- Embedding of `MarkovModel.train`: no-op on an empty token list, otherwise one counted
window per `i in range(len(full_sequence) - order)`. -/
def train (m : MarkovModel) (tokens : List String) : MarkovModel :=
  if tokens = [] then m
  else
    let seq := fullSequence m.order tokens
    { m with
      transitions := (List.range (seq.length - m.order)).foldl
        (fun t i => addTransition t (windowState m.order seq i) (windowNext m.order seq i))
        m.transitions }

/-- How many training windows of `tokens` have state `s` and next token `n`
(the window index runs over `range(len(full_sequence) - order)`). -/
def windowHits (order : Nat) (tokens : List String) (s n : String) : Nat :=
  ((List.range ((fullSequence order tokens).length - order)).filter
    (fun i => windowState order (fullSequence order tokens) i = s
      ∧ windowNext order (fullSequence order tokens) i = n)).length

theorem getA_bumpTok (inner : List (String × Int)) (tok n : String) :
    (getA (bumpTok inner tok) n).getD 0 = (getA inner n).getD 0 + (if tok = n then 1 else 0) := by
  unfold bumpTok
  cases hi : getA inner tok with
  | some c =>
    by_cases hn : tok = n
    · subst hn
      rw [getA_setA_self, hi]
      simp
    · rw [getA_setA_ne _ _ _ _ (Ne.symm hn)]
      simp [hn]
  | none =>
    by_cases hn : tok = n
    · subst hn
      rw [getA_append_none _ hi, hi]
      simp [getA]
    · cases hg2 : getA inner n with
      | some v => rw [getA_append_some _ hg2]; simp [hn]
      | none => rw [getA_append_none _ hg2]; simp [getA, Ne.symm hn, hn]

theorem countT_addTransition (t : TransMap) (state tok s n : String) :
    countT (addTransition t state tok) s n
      = countT t s n + (if state = s ∧ tok = n then 1 else 0) := by
  by_cases hs : state = s
  · subst hs
    unfold countT addTransition
    cases hg : getA t state with
    | none =>
      rw [getA_append_none _ hg]
      simp [getA, getA_bumpTok]
      by_cases hn : tok = n <;> simp [hn]
    | some inner =>
      rw [getA_setA_self]
      simp [getA_bumpTok]
  · unfold countT addTransition
    cases hg : getA t state with
    | none =>
      cases hgs : getA t s with
      | some v => rw [getA_append_some _ hgs]; simp [hs]
      | none =>
        rw [getA_append_none _ hgs]
        simp [getA, Ne.symm hs, hs]
    | some inner =>
      rw [getA_setA_ne _ _ _ _ (Ne.symm hs)]
      simp [hs]

theorem countT_foldl_addTransition (order : Nat) (seq : List String) (s n : String)
    (idxs : List Nat) (t : TransMap) :
    countT (idxs.foldl
        (fun t i => addTransition t (windowState order seq i) (windowNext order seq i)) t) s n
      = countT t s n
        + (idxs.filter (fun i => windowState order seq i = s ∧ windowNext order seq i = n)).length := by
  induction idxs generalizing t with
  | nil => simp
  | cons i rest ih =>
    rw [List.foldl_cons, ih, countT_addTransition, List.filter_cons]
    by_cases h : windowState order seq i = s ∧ windowNext order seq i = n
    · simp [h]
      ring
    · simp [h]

theorem train_order (m : MarkovModel) (tokens : List String) :
    (train m tokens).order = m.order := by
  unfold train
  by_cases h : tokens = [] <;> simp [h]

/-- Training adds exactly the window counts of the trained token list on top of
whatever the model already holds (stated for the meaningful orders `≥ 1`). -/
theorem train_count (m : MarkovModel) (h1 : 1 ≤ m.order) (tokens : List String) (s n : String) :
    countT (train m tokens).transitions s n
      = countT m.transitions s n + windowHits m.order tokens s n := by
  unfold train windowHits
  by_cases h : tokens = []
  · subst h
    have hlen : (fullSequence m.order []).length - m.order = 0 := by
      simp only [fullSequence, List.length_append, List.length_replicate, List.length_nil,
        List.length_cons]
      omega
    rw [hlen]
    simp
  · simp only [h, if_false]
    rw [countT_foldl_addTransition]

/-- C1: for every token list, `train` builds the padded sequence of `order−1`
START sentinels, the tokens, and one END sentinel, and counts exactly one
transition per window index `i ∈ range(len(sequence) − order)` (state = join of
tokens `i..i+order−2`, next = token `i+order−1`); this bound excludes the final
window whose next token is the END sentinel, so for order 2 and tokens
`["the","cat","sat"]` the transitions START→the, the→cat, cat→sat are recorded
once each and sat→END is not recorded. -/
theorem train_window_bound (order : Nat) (h1 : 1 ≤ order) (tokens : List String)
    (s n : String) :
    countT (train (emptyModel order) tokens).transitions s n = windowHits order tokens s n
    ∧ countT (train (emptyModel 2) ["the", "cat", "sat"]).transitions "<START>" "the" = 1
    ∧ countT (train (emptyModel 2) ["the", "cat", "sat"]).transitions "the" "cat" = 1
    ∧ countT (train (emptyModel 2) ["the", "cat", "sat"]).transitions "cat" "sat" = 1
    ∧ countT (train (emptyModel 2) ["the", "cat", "sat"]).transitions "sat" "<END>" = 0 := by
  refine ⟨?_, by decide, by decide, by decide, by decide⟩
  have h := train_count (emptyModel order) h1 tokens s n
  simpa [emptyModel, countT, getA] using h

theorem train_window_bound_witness :
    (1 ≤ 2)
    ∧ (countT (train (emptyModel 2) ["the", "cat", "sat"]).transitions "<START>" "the"
          = windowHits 2 ["the", "cat", "sat"] "<START>" "the"
      ∧ countT (train (emptyModel 2) ["the", "cat", "sat"]).transitions "<START>" "the" = 1
      ∧ countT (train (emptyModel 2) ["the", "cat", "sat"]).transitions "the" "cat" = 1
      ∧ countT (train (emptyModel 2) ["the", "cat", "sat"]).transitions "cat" "sat" = 1
      ∧ countT (train (emptyModel 2) ["the", "cat", "sat"]).transitions "sat" "<END>" = 0) :=
  ⟨by decide, train_window_bound 2 (by decide) ["the", "cat", "sat"] "<START>" "the"⟩

/-- C8: training is additive: training the same token list twice on a freshly
initialized model yields exactly twice the count of a single training for
every (state, next) pair, and produces counts for no other pairs (the equation
ranges over all pairs, so pairs the sequence does not produce stay at 0). -/
theorem train_twice_doubles (order : Nat) (h1 : 1 ≤ order) (tokens : List String)
    (s n : String) :
    countT (train (train (emptyModel order) tokens) tokens).transitions s n
      = 2 * countT (train (emptyModel order) tokens).transitions s n := by
  have ho : (train (emptyModel order) tokens).order = order := train_order _ _
  have h2 : 1 ≤ (train (emptyModel order) tokens).order := by rw [ho]; exact h1
  have he : (emptyModel order).order = order := rfl
  have h0 : countT (emptyModel order).transitions s n = 0 := by simp [emptyModel, countT, getA]
  rw [train_count _ h2 tokens s n, train_count (emptyModel order) h1 tokens s n, ho, he, h0]
  ring

theorem train_twice_doubles_witness :
    (1 ≤ 2)
    ∧ countT (train (train (emptyModel 2) ["a", "b"]) ["a", "b"]).transitions "a" "b"
        = 2 * countT (train (emptyModel 2) ["a", "b"]).transitions "a" "b" :=
  ⟨by decide, train_twice_doubles 2 (by decide) ["a", "b"] "a" "b"⟩

/-- Embedding of `MarkovModel.get_distribution`: empty when the state is unknown or its
total count is 0, otherwise each stored count divided by the state total
(python float division embedded as exact `ℚ` division). -/
def getDistribution (m : MarkovModel) (state : String) : List (String × ℚ) :=
  match getA m.transitions state with
  | none => []
  | some counts =>
    let total : Int := (counts.map (fun p => p.2)).sum
    if total = 0 then []
    else counts.map (fun p => (p.1, (p.2 : ℚ) / (total : ℚ)))

/-- Insert one item into a probability-descending list, after every earlier
item of strictly larger probability and before equal ones that come later:
together with `sortDesc` this embeds python stable
`sorted(items, key=count, reverse=True)`. -/
def insDesc (p : String × ℚ) : List (String × ℚ) → List (String × ℚ)
  | [] => [p]
  | q :: qs => if p.2 < q.2 then q :: insDesc p qs else p :: q :: qs

/-- Stable descending sort by probability, as used by the top-k filter of
`MarkovModel._sample_token`. -/
def sortDesc : List (String × ℚ) → List (String × ℚ)
  | [] => []
  | p :: ps => insDesc p (sortDesc ps)

/-- Python `max(distribution.items(), key=lambda x: x[1])`: the first item
attaining the maximal probability (python `max` keeps the earliest maximum;
the `[]` case is unreachable because the caller checks for emptiness). -/
def maxByProb : List (String × ℚ) → (String × ℚ)
  | [] => (endTok, 0)
  | p :: ps => ps.foldl (fun best q => if best.2 < q.2 then q else best) p

/-- Cursor of `random.choices`: walk the cumulative weights with the scaled
random draw `y`, falling back to the last item (python's bisect cannot pass
the end for draws `random() < 1`; the `[]` case is unreachable). -/
def pickWeighted (y : ℚ) : List (String × ℚ) → String
  | [] => endTok
  | [q] => q.1
  | q :: q' :: qs => if y < q.2 then q.1 else pickWeighted (y - q.2) (q' :: qs)

/-- Embedding of `random.choices(tokens, weights=probabilities, k=1)[0]` for one uniform
draw `r` in `[0,1)`. -/
def weightedChoice (items : List (String × ℚ)) (r : ℚ) : String :=
  pickWeighted (r * (items.map (fun p => p.2)).sum) items

/-- Embedding of `MarkovModel._sample_token`: top-k truncation over the stable descending
sort with renormalization, then either the deterministic argmax (temperature
≤ 0) or temperature reweighting `p ** (1/temperature)` (the float power is the
explicit parameter `pw`; only positive probabilities are reweighted, and the
reweighted distribution is kept only when its total is positive) followed by
one weighted random draw. -/
def sampleToken (pw : ℚ → ℚ → ℚ) (dist0 : List (String × ℚ)) (temperature : ℚ)
    (topK : Option Nat) (r : ℚ) : String :=
  if dist0 = [] then endTok
  else
    let dist1 := match topK with
      | none => dist0
      | some k =>
        let s := (sortDesc dist0).take k
        let total := (s.map (fun p => p.2)).sum
        s.map (fun p => (p.1, p.2 / total))
    if temperature ≤ 0 then (maxByProb dist1).1
    else
      let dist2 :=
        if temperature = 1 then dist1
        else
          let adjusted := (dist1.filter (fun p => 0 < p.2)).map
            (fun p => (p.1, pw p.2 (1 / temperature)))
          let total := (adjusted.map (fun p => p.2)).sum
          if 0 < total then adjusted.map (fun p => (p.1, p.2 / total)) else dist1
      weightedChoice dist2 r

/-- Embedding of `MarkovModel._apply_length_bias` with `math.exp` as the explicit parameter
`ex`: boost the END probability by `1 + 10·sigmoid` and renormalize when the
boosted total is positive (steepness 0.2 and offset 0.8·recommended as exact
rationals). -/
def applyLengthBias (ex : ℚ → ℚ) (dist : List (String × ℚ)) (currentLength : Nat)
    (recommendedLength : Int) : List (String × ℚ) :=
  if getA dist endTok = none ∨ recommendedLength ≤ 0 then dist
  else
    let steepness : ℚ := 1 / 5
    let offset : ℚ := 4 / 5 * (recommendedLength : ℚ)
    let sigmoid : ℚ := 1 / (1 + ex (-(steepness * ((currentLength : ℚ) - offset))))
    let boost : ℚ := 1 + sigmoid * 10
    let d2 := dist.map (fun p => if p.1 = endTok then (p.1, p.2 * boost) else p)
    let total := (d2.map (fun p => p.2)).sum
    if 0 < total then d2.map (fun p => (p.1, p.2 / total)) else d2

/-- The state update of `MarkovModel.generate`: split the state on whitespace
(python `str.split()` drops empty pieces), drop the oldest token, append the
sampled one, and re-join. -/
def shiftState (state next : String) : String :=
  " ".intercalate ((((state.split (fun c => c = ' ')).filter (fun w => ¬ w = "")).drop 1)
    ++ [next])

/-- The generation loop of `MarkovModel.generate`, by remaining token budget:
stop on an empty distribution, apply the length bias when requested and END is
present, sample, stop without emitting on END, otherwise emit and slide the
state window.  `emitted` is `len(generated_tokens)` (= the loop index, since
every non-breaking iteration emits exactly one token) and `rng emitted` is the
uniform draw consumed by that iteration's `random.choices`. -/
def genLoop (pw : ℚ → ℚ → ℚ) (ex : ℚ → ℚ) (m : MarkovModel) (temperature : ℚ)
    (topK : Option Nat) (recommendedTokens : Option Int) (rng : Nat → ℚ) :
    Nat → String → Nat → List String
  | 0, _, _ => []
  | fuel + 1, state, emitted =>
    let dist := getDistribution m state
    if dist = [] then []
    else
      let dist' := match recommendedTokens with
        | some recLen =>
          if ¬ getA dist endTok = none then applyLengthBias ex dist emitted recLen else dist
        | none => dist
      let next := sampleToken pw dist' temperature topK (rng emitted)
      if next = endTok then []
      else next :: genLoop pw ex m temperature topK recommendedTokens rng fuel
        (shiftState state next) (emitted + 1)

/-- Embedding of `MarkovModel.generate`, returning the list of emitted tokens (the python
method returns `" ".join` of exactly this list): empty seed states fall back
to the all-START state. -/
def generate (pw : ℚ → ℚ → ℚ) (ex : ℚ → ℚ) (m : MarkovModel) (seedState : String)
    (maxTokens : Nat) (temperature : ℚ) (topK : Option Nat)
    (recommendedTokens : Option Int) (rng : Nat → ℚ) : List String :=
  let seed := if seedState = "" then " ".intercalate (List.replicate (m.order - 1) startTok)
    else seedState
  genLoop pw ex m temperature topK recommendedTokens rng maxTokens seed 0

theorem maxByProb_cons (p : String × ℚ) (ps : List (String × ℚ)) :
    maxByProb (p :: ps) = ps.foldl (fun best q => if best.2 < q.2 then q else best) p := rfl

theorem maxByProb_mem (l : List (String × ℚ)) (h : l ≠ []) : maxByProb l ∈ l := by
  cases l with
  | nil => exact absurd rfl h
  | cons p ps =>
    clear h
    induction ps generalizing p with
    | nil => simp [maxByProb_cons]
    | cons q qs ih =>
      rw [maxByProb_cons]
      simp only [List.foldl_cons]
      rw [← maxByProb_cons]
      by_cases hc : p.2 < q.2
      · rw [if_pos hc]
        exact List.mem_cons_of_mem p (ih q)
      · rw [if_neg hc]
        rcases List.mem_cons.mp (ih p) with h | h
        · rw [h]
          exact List.mem_cons_self _ _
        · exact List.mem_cons_of_mem _ (List.mem_cons_of_mem _ h)

theorem maxByProb_le (l : List (String × ℚ)) : ∀ q ∈ l, q.2 ≤ (maxByProb l).2 := by
  cases l with
  | nil => intro q hq; simp at hq
  | cons p ps =>
    induction ps generalizing p with
    | nil =>
      intro q hq
      simp only [List.mem_singleton] at hq
      simp [maxByProb_cons, hq]
    | cons x xs ih =>
      intro q hq
      rw [maxByProb_cons]
      simp only [List.foldl_cons]
      rw [← maxByProb_cons]
      by_cases hc : p.2 < x.2
      · rw [if_pos hc]
        rcases List.mem_cons.mp hq with h | h
        · rw [h]
          exact le_trans (le_of_lt hc) (ih x x (List.mem_cons_self x xs))
        · rcases List.mem_cons.mp h with h2 | h2
          · rw [h2]
            exact ih x x (List.mem_cons_self x xs)
          · exact ih x q (List.mem_cons_of_mem x h2)
      · rw [if_neg hc]
        rcases List.mem_cons.mp hq with h | h
        · rw [h]
          exact ih p p (List.mem_cons_self p xs)
        · rcases List.mem_cons.mp h with h2 | h2
          · rw [h2]
            exact le_trans (not_lt.mp hc) (ih p p (List.mem_cons_self p xs))
          · exact ih p q (List.mem_cons_of_mem p h2)

/-- C6: sampling at temperature ≤ 0 is deterministic: with no top-k filter the
sampled token is the first token of maximal probability, and two runs with
different random draws return the same token (the random source is never
consulted). -/
theorem sample_zero_temperature (pw : ℚ → ℚ → ℚ) (dist : List (String × ℚ))
    (temperature : ℚ) (r1 r2 : ℚ) (hne : dist ≠ []) (htemp : temperature ≤ 0) :
    sampleToken pw dist temperature none r1 = sampleToken pw dist temperature none r2
    ∧ sampleToken pw dist temperature none r1 = (maxByProb dist).1
    ∧ maxByProb dist ∈ dist
    ∧ ∀ q ∈ dist, q.2 ≤ (maxByProb dist).2 := by
  refine ⟨?_, ?_, maxByProb_mem dist hne, fun q hq => maxByProb_le dist q hq⟩
  · simp [sampleToken, hne, htemp]
  · simp [sampleToken, hne, htemp]

theorem sample_zero_temperature_witness :
    ((([("a", (1 : ℚ)/4), ("b", 1/2), ("c", 1/4)] : List (String × ℚ)) ≠ []) ∧ ((0 : ℚ) ≤ 0))
    ∧ sampleToken (fun a _ => a) [("a", (1 : ℚ)/4), ("b", 1/2), ("c", 1/4)] 0 none (1/3)
        = sampleToken (fun a _ => a) [("a", (1 : ℚ)/4), ("b", 1/2), ("c", 1/4)] 0 none (2/3)
    ∧ sampleToken (fun a _ => a) [("a", (1 : ℚ)/4), ("b", 1/2), ("c", 1/4)] 0 none (1/3)
        = (maxByProb [("a", (1 : ℚ)/4), ("b", 1/2), ("c", 1/4)]).1
    ∧ maxByProb [("a", (1 : ℚ)/4), ("b", 1/2), ("c", 1/4)]
        ∈ [("a", (1 : ℚ)/4), ("b", 1/2), ("c", 1/4)]
    ∧ ∀ q ∈ [("a", (1 : ℚ)/4), ("b", 1/2), ("c", 1/4)],
        q.2 ≤ (maxByProb [("a", (1 : ℚ)/4), ("b", 1/2), ("c", 1/4)]).2 :=
  ⟨⟨by decide, le_refl 0⟩,
    sample_zero_temperature (fun a _ => a) _ 0 (1/3) (2/3) (by decide) (le_refl 0)⟩

theorem sortDesc_cons (p : String × ℚ) (ps : List (String × ℚ)) :
    sortDesc (p :: ps) = insDesc p (sortDesc ps) := rfl

theorem insDesc_ne_nil (p : String × ℚ) (l : List (String × ℚ)) : insDesc p l ≠ [] := by
  cases l with
  | nil => simp [insDesc]
  | cons q qs =>
    unfold insDesc
    split <;> simp

theorem sortDesc_ne_nil (l : List (String × ℚ)) (h : l ≠ []) : sortDesc l ≠ [] := by
  cases l with
  | nil => exact absurd rfl h
  | cons p ps =>
    rw [sortDesc_cons]
    exact insDesc_ne_nil _ _

theorem sortDesc_head_mem (l : List (String × ℚ)) (h : l ≠ []) (d : String × ℚ) :
    (sortDesc l).headD d ∈ l := by
  cases l with
  | nil => exact absurd rfl h
  | cons p ps =>
    clear h
    induction ps generalizing p with
    | nil => simp [sortDesc_cons, sortDesc, insDesc]
    | cons x xs ih =>
      rw [sortDesc_cons]
      cases hsp : sortDesc (x :: xs) with
      | nil => exact absurd hsp (sortDesc_ne_nil _ (by simp))
      | cons hh tt =>
        have hmem : hh ∈ x :: xs := by
          have := ih x
          rw [hsp] at this
          simpa using this
        unfold insDesc
        by_cases hc : p.2 < hh.2
        · rw [if_pos hc]
          simp only [List.headD_cons]
          exact List.mem_cons_of_mem p hmem
        · rw [if_neg hc]
          simp

theorem sortDesc_head_le (l : List (String × ℚ)) (d : String × ℚ) :
    ∀ q ∈ l, q.2 ≤ ((sortDesc l).headD d).2 := by
  cases l with
  | nil => intro q hq; simp at hq
  | cons p ps =>
    induction ps generalizing p with
    | nil =>
      intro q hq
      simp only [List.mem_singleton] at hq
      simp [sortDesc_cons, sortDesc, insDesc, hq]
    | cons x xs ih =>
      intro q hq
      rw [sortDesc_cons]
      cases hsp : sortDesc (x :: xs) with
      | nil => exact absurd hsp (sortDesc_ne_nil _ (by simp))
      | cons hh tt =>
        have hall : ∀ q' ∈ x :: xs, q'.2 ≤ hh.2 := by
          intro q' hq'
          have := ih x q' hq'
          rw [hsp] at this
          simpa using this
        unfold insDesc
        by_cases hc : p.2 < hh.2
        · rw [if_pos hc]
          simp only [List.headD_cons]
          rcases List.mem_cons.mp hq with h | h
          · rw [h]; exact le_of_lt hc
          · exact hall q h
        · rw [if_neg hc]
          simp only [List.headD_cons]
          rcases List.mem_cons.mp hq with h | h
          · rw [h]
          · exact le_trans (hall q h) (not_lt.mp hc)

/-- C7: sampling with top-k = 1 always returns the head of the stable
probability-descending sort — the distribution's highest-probability token
under the tie-break order of the sorted filtering step — for every
temperature, because the truncation leaves a single candidate. -/
theorem sample_topk_one (pw : ℚ → ℚ → ℚ) (dist : List (String × ℚ)) (temperature r : ℚ)
    (hne : dist ≠ []) (hpos : ∃ q ∈ dist, 0 < q.2) :
    sampleToken pw dist temperature (some 1) r = ((sortDesc dist).headD (endTok, 0)).1
    ∧ ((sortDesc dist).headD (endTok, 0)) ∈ dist
    ∧ ∀ q ∈ dist, q.2 ≤ ((sortDesc dist).headD (endTok, 0)).2 := by
  obtain ⟨q0, hq0, hq0pos⟩ := hpos
  have hhdpos : 0 < ((sortDesc dist).headD (endTok, 0)).2 :=
    lt_of_lt_of_le hq0pos (sortDesc_head_le dist (endTok, 0) q0 hq0)
  refine ⟨?_, sortDesc_head_mem dist hne _, sortDesc_head_le dist _⟩
  cases hsd : sortDesc dist with
  | nil => exact absurd hsd (sortDesc_ne_nil dist hne)
  | cons hd tl =>
    rw [hsd] at hhdpos
    simp only [List.headD_cons] at hhdpos
    have hdd : hd.2 ≠ 0 := ne_of_gt hhdpos
    simp only [sampleToken, hsd]
    rw [if_neg hne]
    simp only [List.headD_cons, List.take_succ_cons, List.take_zero, List.map_cons,
      List.map_nil, List.sum_cons, List.sum_nil, add_zero, div_self hdd]
    split_ifs with h1 h2 h3
    · rfl
    · rfl
    · have hfilter : List.filter (fun p => decide (0 < p.2)) [(hd.1, (1 : ℚ))] = [(hd.1, 1)] := by
        norm_num
      rw [hfilter]
      rfl
    · rfl

theorem sample_topk_one_witness :
    ((([("a", (1 : ℚ)/4), ("b", 1/2), ("c", 1/4)] : List (String × ℚ)) ≠ [])
      ∧ (∃ q ∈ [("a", (1 : ℚ)/4), ("b", 1/2), ("c", 1/4)], 0 < q.2))
    ∧ sampleToken (fun a _ => a) [("a", (1 : ℚ)/4), ("b", 1/2), ("c", 1/4)] 3 (some 1) (1/3)
        = ((sortDesc [("a", (1 : ℚ)/4), ("b", 1/2), ("c", 1/4)]).headD (endTok, 0)).1
    ∧ ((sortDesc [("a", (1 : ℚ)/4), ("b", 1/2), ("c", 1/4)]).headD (endTok, 0))
        ∈ [("a", (1 : ℚ)/4), ("b", 1/2), ("c", 1/4)]
    ∧ ∀ q ∈ [("a", (1 : ℚ)/4), ("b", 1/2), ("c", 1/4)],
        q.2 ≤ ((sortDesc [("a", (1 : ℚ)/4), ("b", 1/2), ("c", 1/4)]).headD (endTok, 0)).2 :=
  ⟨⟨by simp, ⟨("b", 1/2), List.mem_cons_of_mem _ (List.mem_cons_self _ _), by norm_num⟩⟩,
    sample_topk_one (fun a _ => a) _ 3 (1/3) (by simp)
      ⟨("b", 1/2), List.mem_cons_of_mem _ (List.mem_cons_self _ _), by norm_num⟩⟩

/-! ### The storage layer (`ollama_markov/storage/database.py`) -/

/-- Primary key of the `transitions` ledger: `(order_n, state_text, next_token)`. -/
abbrev TKey : Type := Nat × String × String

/-- One row `(order_n, state, next_token, count)` as passed to
`Database.add_transitions_batch`. -/
abbrev TRow : Type := Nat × String × String × Int

/-- The persistent store (`Database`): the raw `messages` corpus (id and
content; the other columns are never read by the operations verified here),
the write-optimized `transitions` ledger, the read-optimized compacted
`states` cache (per-state token→count distribution and `total_count`;
`updated_at` is not modelled), and the `message_processing` cursor keyed by
`(message_id, order_n)`.  `nextId` is the next SQLite rowid for `messages`. -/
structure Database where
  messages : List (Nat × String)
  ledger : List (TKey × Int)
  states : List ((Nat × String) × (List (String × Int) × Int))
  processing : List ((Nat × Nat) × Bool)
  nextId : Nat

/-- A freshly initialized database: all four tables empty (rowids start at 1). -/
def emptyDatabase : Database :=
  { messages := [], ledger := [], states := [], processing := [], nextId := 1 }

/-- The UPDATE-then-INSERT merge of one row into the `transitions` table
(shared by `add_transition` and each loop iteration of
`add_transitions_batch`): increment the count of an existing keyed row, or
insert a new row with the given count. -/
def mergeRow (led : List (TKey × Int)) (row : TRow) : List (TKey × Int) :=
  let k : TKey := (row.1, row.2.1, row.2.2.1)
  match getA led k with
  | some old => setA led k (old + row.2.2.2)
  | none => led ++ [(k, row.2.2.2)]

/-- The statement sequence of `add_transitions_batch` between BEGIN and
COMMIT, with an explicit failure oracle for transient storage errors:
`failAt = some j` makes the statement after `j` successful row merges raise
(`j ≥ rows.length` places the failure at or after COMMIT's success, i.e. no
failure for `j > rows.length`, and a COMMIT failure for `j = rows.length`). -/
def runBatch (led : List (TKey × Int)) : List TRow → Option Nat → Except Unit (List (TKey × Int))
  | _, some 0 => .error ()
  | [], _ => .ok led
  | row :: rest, none => runBatch (mergeRow led row) rest none
  | row :: rest, some (j + 1) => runBatch (mergeRow led row) rest (some j)

/-- Embedding of `Database.add_transitions_batch`: early return on an empty row list,
otherwise run the batch inside one transaction; on any failure the
transaction is rolled back (the store is left unchanged) and the error is
re-raised (the `some ()` in the second component). -/
def addTransitionsBatch (db : Database) (rows : List TRow) (failAt : Option Nat) :
    Database × Option Unit :=
  if rows = [] then (db, none)
  else
    match runBatch db.ledger rows failAt with
    | .ok led => ({ db with ledger := led }, none)
    | .error _ => (db, some ())

theorem runBatch_ok_or_error (rows : List TRow) (led : List (TKey × Int)) (failAt : Option Nat) :
    runBatch led rows failAt = .ok (rows.foldl mergeRow led)
    ∨ runBatch led rows failAt = .error () := by
  induction rows generalizing led failAt with
  | nil =>
    cases failAt with
    | none => exact .inl rfl
    | some j => cases j with
      | zero => exact .inr rfl
      | succ j' => exact .inl rfl
  | cons row rest ih =>
    cases failAt with
    | none =>
      rw [List.foldl_cons]
      exact ih (mergeRow led row) none
    | some j => cases j with
      | zero => exact .inr rfl
      | succ j' =>
        rw [List.foldl_cons]
        exact ih (mergeRow led row) (some j')

/-- C4: `add_transitions_batch` is atomic: for every row list and every
failure point, either every row is merged into the transitions table (insert
if absent, else count += Δ) and no error is reported, or the store is left
exactly unchanged and the error is re-raised; moreover a failure-free run
always merges everything.  Partial application is never observable. -/
theorem runBatch_none (rows : List TRow) (led : List (TKey × Int)) :
    runBatch led rows none = .ok (rows.foldl mergeRow led) := by
  induction rows generalizing led with
  | nil => rfl
  | cons row rest ih =>
    rw [List.foldl_cons]
    exact ih (mergeRow led row)

theorem add_transitions_batch_atomic (db : Database) (rows : List TRow)
    (failAt : Option Nat) :
    (addTransitionsBatch db rows failAt
        = ({ db with ledger := rows.foldl mergeRow db.ledger }, none)
      ∨ addTransitionsBatch db rows failAt = (db, some ()))
    ∧ addTransitionsBatch db rows none
        = ({ db with ledger := rows.foldl mergeRow db.ledger }, none) := by
  constructor
  · by_cases h : rows = []
    · subst h
      exact .inl (by simp [addTransitionsBatch])
    · unfold addTransitionsBatch
      rw [if_neg h]
      rcases runBatch_ok_or_error rows db.ledger failAt with hr | hr
      · rw [hr]
        exact .inl rfl
      · rw [hr]
        exact .inr rfl
  · by_cases h : rows = []
    · subst h
      simp [addTransitionsBatch]
    · unfold addTransitionsBatch
      rw [if_neg h, runBatch_none]

/-- Sum of all ledger counts stored under a key (`SELECT SUM(count)` for that
key; the primary key keeps at most one row per key in every reachable store,
so this is also that row's count). -/
def ledgerSum (db : Database) (k : TKey) : Int :=
  ((db.ledger.filter (fun r => r.1 = k)).map (fun r => r.2)).sum

/-! ### The request path and the background worker (C2) -/

/-- The flattening of `model.transitions` into batch rows
`(order, state, next_token, count)` — the nested loops of
`Generator.generate_from_prompt`, `Generator.generate_from_messages` and
`BackgroundWorker.process_batch`. -/
def flattenTransitions (order : Nat) (t : TransMap) : List TRow :=
  (t.map (fun si => si.2.map (fun nc => (order, si.1, nc.1, nc.2)))).flatten

/-- Embedding of `Database.add_message`: insert the message with the next rowid and, when
`pending_orders` is given, one unprocessed cursor row per pending order. -/
def addMessage (db : Database) (content : String) (pendingOrders : List Nat) : Database :=
  { db with
    messages := db.messages ++ [(db.nextId, content)]
    processing := db.processing ++ pendingOrders.map (fun o => ((db.nextId, o), false))
    nextId := db.nextId + 1 }

/-- The train-and-flush phase of `Generator.generate_from_prompt` (the only
part of the request path that writes training state; generation and safety
filtering follow it and do not write): store the raw prompt, train the shared
in-memory model, and flush the model's ENTIRE `transitions` map to the store
as one batch.  The method does not clear `model.transitions` afterwards. -/
def generatorTrainFlush (m : MarkovModel) (db : Database) (prompt : String)
    (tokens : List String) : MarkovModel × Database :=
  if tokens = [] then (m, db)
  else
    let db1 := addMessage db prompt []
    let m1 := train m tokens
    let rows := flattenTransitions m1.order m1.transitions
    let db2 := if rows = [] then db1 else (addTransitionsBatch db1 rows none).1
    (m1, db2)

/-- Embedding of `Database.mark_message_processed`: INSERT OR REPLACE the cursor row with
`processed = 1`. -/
def markMessageProcessed (db : Database) (mid : Nat) (o : Nat) : Database :=
  { db with processing := setA db.processing (mid, o) true }

/-- The per-message body of the `BackgroundWorker.process_batch` loop: empty
token lists are only marked processed; otherwise train the per-order scratch
model, flush its `transitions` map as one batch, CLEAR the in-memory map
("to avoid double-counting", per the source comment), and mark the message
processed. -/
def workerProcessMessage (order : Nat) (m : MarkovModel) (db : Database) (mid : Nat)
    (tokens : List String) : MarkovModel × Database :=
  if tokens = [] then (m, markMessageProcessed db mid order)
  else
    let m1 := train m tokens
    let rows := flattenTransitions order m1.transitions
    let md := if rows = [] then (m1, db)
      else ({ m1 with transitions := [] }, (addTransitionsBatch db rows none).1)
    (md.1, markMessageProcessed md.2 mid order)

/-- C2 (evidence of the code bug on the synchronous path): after the same
Generator instance serves the prompt "a b" and then the prompt "c d", the
persisted count of the order-2 transition "a" → "b" is 2 even though "a b"
was trained exactly once — `generate_from_prompt` never clears the in-memory
delta map, so the second flush re-merges the first prompt's counts.  The
background worker's per-message body, which does clear the map after each
flush, leaves the same re-used model instance with the correct count 1. -/
theorem generator_reflush_double_counts :
    ledgerSum (generatorTrainFlush
        (generatorTrainFlush (emptyModel 2) emptyDatabase "a b" ["a", "b"]).1
        (generatorTrainFlush (emptyModel 2) emptyDatabase "a b" ["a", "b"]).2
        "c d" ["c", "d"]).2 (2, "a", "b") = 2
    ∧ ledgerSum (workerProcessMessage 2
        (workerProcessMessage 2 (emptyModel 2) emptyDatabase 1 ["a", "b"]).1
        (workerProcessMessage 2 (emptyModel 2) emptyDatabase 1 ["a", "b"]).2
        2 ["c", "d"]).2 (2, "a", "b") = 1 := by
  constructor
  · decide
  · decide

/-! ### Compaction (`Database.compact`) -/

/-- The cache update `dist[next_token] = dist.get(next_token, 0) + total_count`
performed on a CompactedState's decoded distribution. -/
def distAdd (dist : List (String × Int)) (n : String) (c : Int) : List (String × Int) :=
  setA dist n ((getA dist n).getD 0 + c)

/-- One iteration of the `Database.compact` loop for one grouped ledger row
`(key, count)`: merge into an existing CompactedState (add to its cached
distribution and to `total_count`) or create a fresh one.  The SQL
`GROUP BY order_n, state_text, next_token` groups by the ledger's primary
key, so each stored row is its own group and the row's count is its group
sum; iterating rows therefore implements the grouped loop. -/
def compactRow (states : List ((Nat × String) × (List (String × Int) × Int)))
    (row : TKey × Int) : List ((Nat × String) × (List (String × Int) × Int)) :=
  let o := row.1.1
  let s := row.1.2.1
  let n := row.1.2.2
  let c := row.2
  match getA states (o, s) with
  | some dt => setA states (o, s) (distAdd dt.1 n c, dt.2 + c)
  | none => states ++ [((o, s), ([(n, c)], c))]

/-- Embedding of `Database.compact`: fold every ledger row into the states cache, then
delete all `transitions` rows (the python method also returns the number of
compacted rows, which no caller consumes). -/
def compact (db : Database) : Database :=
  { db with states := db.ledger.foldl compactRow db.states, ledger := [] }

/-- Count held for a ledger key inside a states-cache table. -/
def cacheAt (states : List ((Nat × String) × (List (String × Int) × Int))) (k : TKey) : Int :=
  match getA states (k.1, k.2.1) with
  | none => 0
  | some dt => (getA dt.1 k.2.2).getD 0

/-- Count held for a ledger key in the compacted `states` cache of a store. -/
def cacheCount (db : Database) (k : TKey) : Int := cacheAt db.states k

theorem cacheAt_compactRow (states : List ((Nat × String) × (List (String × Int) × Int)))
    (row : TKey × Int) (k : TKey) :
    cacheAt (compactRow states row) k
      = cacheAt states k + (if row.1 = k then row.2 else 0) := by
  obtain ⟨⟨o, s, n⟩, c⟩ := row
  obtain ⟨ko, ks, kn⟩ := k
  unfold compactRow cacheAt
  dsimp only
  cases hg : getA states (o, s) with
  | some dt =>
    by_cases hks : ((ko, ks) : Nat × String) = (o, s)
    · rw [hks, getA_setA_self, hg]
      unfold distAdd
      dsimp only
      simp only [Prod.mk.injEq] at hks
      by_cases hn : kn = n
      · rw [hn, getA_setA_self]
        simp [hks.1, hks.2, Prod.ext_iff]
      · rw [getA_setA_ne _ _ _ _ hn]
        have hcond : ¬ ((o, s, n) : TKey) = (ko, ks, kn) := by
          simp only [Prod.mk.injEq]
          intro hh
          exact hn hh.2.2.symm
        simp [hcond]
    · rw [getA_setA_ne _ _ _ _ hks]
      have hcond : ¬ ((o, s, n) : TKey) = (ko, ks, kn) := by
        simp only [Prod.mk.injEq] at hks ⊢
        intro hh
        exact hks ⟨hh.1.symm, hh.2.1.symm⟩
      simp [hcond]
  | none =>
    by_cases hks : ((ko, ks) : Nat × String) = (o, s)
    · rw [hks, getA_append_none _ hg, hg]
      simp only [Prod.mk.injEq] at hks
      simp only [getA, if_pos rfl]
      by_cases hn : n = kn
      · simp [getA, hn, hks.1, hks.2]
      · have hcond : ¬ ((o, s, n) : TKey) = (ko, ks, kn) := by
          simp only [Prod.mk.injEq]
          intro hh
          exact hn hh.2.2
        simp [getA, hn, hks.1, hks.2, hcond]
    · cases hgk : getA states (ko, ks) with
      | some v =>
        rw [getA_append_some _ hgk]
        have hcond : ¬ ((o, s, n) : TKey) = (ko, ks, kn) := by
          simp only [Prod.mk.injEq] at hks ⊢
          intro hh
          exact hks ⟨hh.1.symm, hh.2.1.symm⟩
        simp [hcond]
      | none =>
        rw [getA_append_none _ hgk]
        have hcond : ¬ ((o, s, n) : TKey) = (ko, ks, kn) := by
          simp only [Prod.mk.injEq] at hks ⊢
          intro hh
          exact hks ⟨hh.1.symm, hh.2.1.symm⟩
        have hpair : ¬ ((o, s) : Nat × String) = (ko, ks) := fun hh => hks hh.symm
        simp [getA, hpair, hcond]

theorem cacheAt_foldl_compactRow (rows : List (TKey × Int))
    (states : List ((Nat × String) × (List (String × Int) × Int))) (k : TKey) :
    cacheAt (rows.foldl compactRow states) k
      = cacheAt states k + ((rows.filter (fun r => r.1 = k)).map (fun r => r.2)).sum := by
  induction rows generalizing states with
  | nil => simp
  | cons row rest ih =>
    rw [List.foldl_cons, ih, cacheAt_compactRow, List.filter_cons]
    by_cases h : row.1 = k
    · simp [h]
      ring
    · simp [h]

/-- C5: compaction conserves counts and is a no-op on an empty ledger: for
every `(order, state, next)` key, the ledger count plus the compacted-cache
count is the same after `compact()` as before it (the ledger's total moves
into the cache and the ledger is emptied), and running `compact` again with
no new data in between changes nothing at all. -/
theorem compact_conserves (db : Database) (k : TKey) :
    ledgerSum (compact db) k + cacheCount (compact db) k
      = ledgerSum db k + cacheCount db k
    ∧ compact (compact db) = compact db := by
  constructor
  · have h1 : ledgerSum (compact db) k = 0 := by simp [ledgerSum, compact]
    have h2 : cacheCount (compact db) k
        = cacheAt db.states k + ((db.ledger.filter (fun r => r.1 = k)).map (fun r => r.2)).sum := by
      unfold cacheCount compact
      exact cacheAt_foldl_compactRow db.ledger db.states k
    rw [h1, h2]
    unfold ledgerSum cacheCount
    ring
  · rfl

/-! ### The ingestion cursor (`get_unprocessed_messages` / `mark_message_processed`) -/

/-- Embedding of `Database.get_unprocessed_messages`: messages in id order whose cursor row
for the order is missing (`mp.processed IS NULL`) or unprocessed
(`mp.processed = 0`); python's `if limit:` treats both `None` and `0` as "no
LIMIT clause". -/
def getUnprocessedMessages (db : Database) (o : Nat) (limit : Option Nat) :
    List (Nat × String) :=
  let unproc := db.messages.filter (fun m =>
    match getA db.processing (m.1, o) with
    | none => true
    | some b => ! b)
  match limit with
  | none => unproc
  | some l => if l = 0 then unproc else unproc.take l

/-- The store mutations that can run between a mark and a later poll: message
inserts (with optional pending orders), further marks, and batch merges. -/
inductive DbOp where
  | addMsg : String → List Nat → DbOp
  | mark : Nat → Nat → DbOp
  | batch : List TRow → Option Nat → DbOp

/-- Apply one store operation (a batch merge keeps the resulting store whether
or not the batch failed and rolled back). -/
def applyOp (db : Database) : DbOp → Database
  | .addMsg content pending => addMessage db content pending
  | .mark mid o => markMessageProcessed db mid o
  | .batch rows failAt => (addTransitionsBatch db rows failAt).1

/-- Apply a sequence of store operations. -/
def applyOps (db : Database) (ops : List DbOp) : Database := ops.foldl applyOp db

/-- The invariant behind cursor terminality: the `(mid, o)` cursor row is
processed, and `mid` is an already-allocated rowid. -/
def ProcessedInv (db : Database) (mid o : Nat) : Prop :=
  getA db.processing (mid, o) = some true ∧ mid < db.nextId

theorem addTransitionsBatch_fields (db : Database) (rows : List TRow) (failAt : Option Nat) :
    (addTransitionsBatch db rows failAt).1.processing = db.processing
    ∧ (addTransitionsBatch db rows failAt).1.nextId = db.nextId
    ∧ (addTransitionsBatch db rows failAt).1.messages = db.messages := by
  unfold addTransitionsBatch
  by_cases h : rows = []
  · simp [h]
  · rw [if_neg h]
    cases runBatch db.ledger rows failAt <;> simp

theorem applyOp_preserves (db : Database) (op : DbOp) (mid o : Nat)
    (h : ProcessedInv db mid o) : ProcessedInv (applyOp db op) mid o := by
  obtain ⟨hget, hid⟩ := h
  cases op with
  | addMsg content pending =>
    refine ⟨?_, ?_⟩
    · exact getA_append_some _ hget
    · exact Nat.lt_succ_of_lt hid
  | mark mid' o' =>
    refine ⟨?_, hid⟩
    by_cases hk : ((mid, o) : Nat × Nat) = (mid', o')
    · rw [applyOp, markMessageProcessed]
      dsimp only
      rw [hk, getA_setA_self]
    · rw [applyOp, markMessageProcessed]
      dsimp only
      rw [getA_setA_ne _ _ _ _ hk]
      exact hget
  | batch rows failAt =>
    obtain ⟨hp, hn, _⟩ := addTransitionsBatch_fields db rows failAt
    exact ⟨by rw [applyOp, hp]; exact hget, by rw [applyOp, hn]; exact hid⟩

theorem applyOps_preserves (db : Database) (ops : List DbOp) (mid o : Nat)
    (h : ProcessedInv db mid o) : ProcessedInv (applyOps db ops) mid o := by
  induction ops generalizing db with
  | nil => exact h
  | cons op rest ih => exact ih (applyOp db op) (applyOp_preserves db op mid o h)

theorem mem_getUnprocessed (db : Database) (o : Nat) (limit : Option Nat)
    (msg : Nat × String) (hmsg : msg ∈ getUnprocessedMessages db o limit) :
    ¬ getA db.processing (msg.1, o) = some true := by
  intro hget
  have hfil : msg ∈ db.messages.filter (fun m =>
      match getA db.processing (m.1, o) with
      | none => true
      | some b => ! b) := by
    unfold getUnprocessedMessages at hmsg
    cases limit with
    | none => exact hmsg
    | some l =>
      by_cases hl : l = 0
      · simpa [hl] using hmsg
      · simp only [hl, if_neg, if_false] at hmsg
        exact List.take_subset _ _ hmsg
  have := (List.mem_filter.mp hfil).2
  rw [hget] at this
  simp at this

/-- C9: the per-(message, order) cursor state "processed" is terminal: once
`mark_message_processed(mid, o)` has run on an existing message id, no later
`get_unprocessed_messages(o, limit)` — with any limit, and after any
interleaving of further marks, new message inserts, and batch merges — ever
returns that message again for that order. -/
theorem processed_is_terminal (db : Database) (mid o : Nat) (ops : List DbOp)
    (limit : Option Nat) (hid : mid < db.nextId) :
    ∀ msg ∈ getUnprocessedMessages (applyOps (markMessageProcessed db mid o) ops) o limit,
      msg.1 ≠ mid := by
  intro msg hmsg heq
  have hinit : ProcessedInv (markMessageProcessed db mid o) mid o := by
    refine ⟨?_, hid⟩
    rw [markMessageProcessed]
    exact getA_setA_self _ _ _
  have hinv := applyOps_preserves _ ops mid o hinit
  have hno := mem_getUnprocessed _ o limit msg hmsg
  rw [heq] at hno
  exact hno hinv.1

theorem processed_is_terminal_witness :
    (1 < (addMessage emptyDatabase "hello" [3]).nextId)
    ∧ ∀ msg ∈ getUnprocessedMessages
        (applyOps (markMessageProcessed (addMessage emptyDatabase "hello" [3]) 1 3)
          [DbOp.addMsg "world" [3]]) 3 none,
        msg.1 ≠ 1 :=
  ⟨by decide, processed_is_terminal (addMessage emptyDatabase "hello" [3]) 1 3
    [DbOp.addMsg "world" [3]] none (by decide)⟩

/-! ### Hydration and the persisted-store distribution (C3) -/

/-- The dict assignment `self.transitions[state][next_token] = count` used by
`MarkovModel.load_from_database` (assignment, not increment). -/
def setTrans (t : TransMap) (state next : String) (c : Int) : TransMap :=
  match getA t state with
  | some inner => setA t state (setA inner next c)
  | none => t ++ [(state, [(next, c)])]

/-- Embedding of `MarkovModel.load_from_database`: iterate every `transitions` ledger row
(`get_all_transitions`; its ORDER BY affects only dict insertion order, which
no count depends on) and overwrite the in-memory count for rows of the
model's own order.  The compacted `states` cache is not read. -/
def loadFromDatabase (db : Database) (m : MarkovModel) : MarkovModel :=
  { m with
    transitions := db.ledger.foldl
      (fun t r => if r.1.1 = m.order then setTrans t r.1.2.1 r.1.2.2 r.2 else t)
      m.transitions }

/-- Embedding of `Database.get_state`: the compacted CompactedState for `(order, state)`,
or `none`. -/
def getState (db : Database) (o : Nat) (s : String) : Option (List (String × Int) × Int) :=
  getA db.states (o, s)

/-- Total in-memory count of a state's outgoing transitions
(`sum(counts.values())` in `get_distribution`). -/
def innerTotal (m : MarkovModel) (state : String) : Int :=
  match getA m.transitions state with
  | none => 0
  | some inner => (inner.map (fun p => p.2)).sum

/-- Modelled from the spec: §4.1's `getDistribution(state, order)` over the
persisted store — "normalized from raw counts (ledger rows plus, if present,
the compacted cache for that state, summed by key); empty mapping if the
state has no outgoing counts".  No function of the repository implements
this; it exists to be compared against the code's `get_distribution`. -/
def getDistributionSpec (db : Database) (order : Nat) (state : String) : List (String × ℚ) :=
  let fromLedger := (db.ledger.filter (fun r => r.1.1 = order ∧ r.1.2.1 = state)).map
    (fun r => (r.1.2.2, r.2))
  let fromCache := match getA db.states (order, state) with
    | none => []
    | some dt => dt.1
  let counts := (fromLedger ++ fromCache).foldl (fun acc nc => distAdd acc nc.1 nc.2) []
  let total : Int := (counts.map (fun p => p.2)).sum
  if total = 0 then [] else counts.map (fun p => (p.1, (p.2 : ℚ) / (total : ℚ)))

/-- C3 counterexample: on a store holding only a compacted cache entry for
state "a" (exactly what `compact()` leaves behind), the spec's
getDistribution — ledger rows plus the compacted cache, summed by key and
normalized — gives b ↦ 1, but the code's `get_distribution`, on the model
hydrated by `load_from_database` (the only path from the store into
`get_distribution`), gives the empty mapping: neither `get_distribution` nor
the hydration ever consults the compacted cache (`Database.get_state` has no
caller). -/
theorem get_distribution_ignores_cache :
    getDistribution
        (loadFromDatabase
          { emptyDatabase with states := [((2, "a"), ([("b", 1)], 1))] } (emptyModel 2)) "a"
      = []
    ∧ getDistributionSpec
        { emptyDatabase with states := [((2, "a"), ([("b", 1)], 1))] } 2 "a"
      = [("b", 1)]
    ∧ getState { emptyDatabase with states := [((2, "a"), ([("b", 1)], 1))] } 2 "a"
      = some ([("b", 1)], 1)
    ∧ ([] : List (String × ℚ)) ≠ [("b", (1 : ℚ))] := by
  refine ⟨rfl, ?_, rfl, by simp⟩
  unfold getDistributionSpec
  norm_num [emptyDatabase, getA, distAdd, setA]

/-- C3 (amended): `get_distribution` returns the token→probability mapping
normalized from the raw counts held in the model's in-memory map for that
state (each count divided by the state total), and returns the empty mapping
exactly when the state has no outgoing counts there (absent state or zero
total); the persisted ledger enters only through `load_from_database`, and
the compacted cache not at all. -/
theorem get_distribution_normalizes (m : MarkovModel) (state : String) :
    (getDistribution m state = [] ↔ innerTotal m state = 0)
    ∧ ∀ inner, getA m.transitions state = some inner → ¬ innerTotal m state = 0 →
        getDistribution m state
          = inner.map (fun p => (p.1, (p.2 : ℚ) / (innerTotal m state : ℚ))) := by
  constructor
  · unfold getDistribution innerTotal
    cases hg : getA m.transitions state with
    | none => simp
    | some inner =>
      by_cases ht : (inner.map (fun p => p.2)).sum = 0
      · simp [ht]
      · simp [ht]
        intro h
        rw [h] at ht
        simp at ht
  · intro inner hg ht
    unfold getDistribution innerTotal at *
    rw [hg] at ht ⊢
    simp only [ht, if_neg, if_false]

theorem get_distribution_normalizes_witness :
    (getA (train (emptyModel 2) ["a", "b"]).transitions "a" = some [("b", 1)]
      ∧ ¬ innerTotal (train (emptyModel 2) ["a", "b"]) "a" = 0)
    ∧ (getDistribution (train (emptyModel 2) ["a", "b"]) "a" = []
        ↔ innerTotal (train (emptyModel 2) ["a", "b"]) "a" = 0)
    ∧ getDistribution (train (emptyModel 2) ["a", "b"]) "a"
        = [("b", (1 : Int))].map (fun p =>
            (p.1, (p.2 : ℚ) / (innerTotal (train (emptyModel 2) ["a", "b"]) "a" : ℚ))) :=
  ⟨⟨by decide, by decide⟩,
    (get_distribution_normalizes (train (emptyModel 2) ["a", "b"]) "a").1,
    (get_distribution_normalizes (train (emptyModel 2) ["a", "b"]) "a").2
      [("b", 1)] (by decide) (by decide)⟩

/-! ### Sentinel freedom of trained models (towards C10) -/

theorem getA_some_mem {κ α : Type} [DecidableEq κ] {l : List (κ × α)} {k : κ} {v : α}
    (h : getA l k = some v) : (k, v) ∈ l := by
  induction l with
  | nil => simp [getA] at h
  | cons p ps ih =>
    by_cases hp : p.1 = k
    · simp only [getA, hp, if_pos] at h
      cases h
      exact List.mem_cons.mpr (.inl (by rw [← hp]))
    · simp only [getA, hp, if_neg, if_false] at h
      exact List.mem_cons_of_mem _ (ih h)

theorem mem_setA {κ α : Type} [DecidableEq κ] {l : List (κ × α)} {k : κ} {v : α}
    {p : κ × α} (h : p ∈ setA l k v) : p = (k, v) ∨ p ∈ l := by
  induction l with
  | nil => simpa [setA] using h
  | cons q qs ih =>
    by_cases hq : q.1 = k
    · simp only [setA, hq, if_pos] at h
      rcases List.mem_cons.mp h with h2 | h2
      · exact .inl h2
      · exact .inr (List.mem_cons_of_mem _ h2)
    · simp only [setA, hq, if_neg, if_false] at h
      rcases List.mem_cons.mp h with h2 | h2
      · exact .inr (h2 ▸ List.mem_cons_self _ _)
      · rcases ih h2 with h3 | h3
        · exact .inl h3
        · exact .inr (List.mem_cons_of_mem _ h3)

/-- A model map all of whose materialized next-token entries carry a
non-sentinel token and a count of at least 1 — the shape `train` alone
produces from sentinel-free token lists. -/
def GoodMap (t : TransMap) : Prop :=
  ∀ s inner, getA t s = some inner →
    ∀ p ∈ inner, (¬ p.1 = startTok ∧ ¬ p.1 = endTok) ∧ 1 ≤ p.2

theorem bumpTok_good (inner : List (String × Int)) (tok : String)
    (hinner : ∀ p ∈ inner, (¬ p.1 = startTok ∧ ¬ p.1 = endTok) ∧ 1 ≤ p.2)
    (htok : ¬ tok = startTok ∧ ¬ tok = endTok) :
    ∀ p ∈ bumpTok inner tok, (¬ p.1 = startTok ∧ ¬ p.1 = endTok) ∧ 1 ≤ p.2 := by
  intro p hp
  unfold bumpTok at hp
  cases hg : getA inner tok with
  | some c =>
    rw [hg] at hp
    rcases mem_setA hp with h | h
    · have hc := (hinner (tok, c) (getA_some_mem hg)).2
      rw [h]
      exact ⟨htok, by omega⟩
    · exact hinner p h
  | none =>
    rw [hg] at hp
    rcases List.mem_append.mp hp with h | h
    · exact hinner p h
    · simp only [List.mem_singleton] at h
      rw [h]
      exact ⟨htok, le_refl 1⟩

theorem addTransition_good (t : TransMap) (state tok : String) (ht : GoodMap t)
    (htok : ¬ tok = startTok ∧ ¬ tok = endTok) : GoodMap (addTransition t state tok) := by
  intro s inner hg p hp
  unfold addTransition at hg
  cases hgs : getA t state with
  | some inner0 =>
    rw [hgs] at hg
    by_cases hs : s = state
    · rw [hs, getA_setA_self] at hg
      cases hg
      exact bumpTok_good inner0 tok (ht state inner0 hgs) htok p hp
    · rw [getA_setA_ne _ _ _ _ hs] at hg
      exact ht s inner hg p hp
  | none =>
    rw [hgs] at hg
    cases hgl : getA t s with
    | some w =>
      rw [getA_append_some _ hgl] at hg
      cases hg
      exact ht s _ hgl p hp
    | none =>
      rw [getA_append_none _ hgl] at hg
      by_cases hs : state = s
      · simp only [getA, hs, if_pos] at hg
        cases hg
        exact bumpTok_good [] tok (by intro q hq; simp at hq) htok p hp
      · simp [getA, hs] at hg

theorem drop_len_add {α : Type} (l₁ l₂ : List α) (i : Nat) :
    (l₁ ++ l₂).drop (l₁.length + i) = l₂.drop i := by
  rw [← List.drop_drop, List.drop_left]

theorem windowNext_mem (order : Nat) (h1 : 1 ≤ order) (tokens : List String) (i : Nat)
    (hi : i < (fullSequence order tokens).length - order) :
    windowNext order (fullSequence order tokens) i ∈ tokens := by
  have hlen : (fullSequence order tokens).length = (order - 1) + (tokens.length + 1) := by
    simp [fullSequence]
  have hit : i < tokens.length := by omega
  have hidx : i + order - 1 = (List.replicate (order - 1) startTok).length + i := by
    simp only [List.length_replicate]
    omega
  unfold windowNext fullSequence
  rw [List.append_assoc, hidx, drop_len_add]
  clear hlen hidx hi h1
  induction tokens generalizing i with
  | nil => simp at hit
  | cons x xs ih =>
    cases i with
    | zero => simp
    | succ j =>
      simp only [List.cons_append, List.drop_succ_cons]
      exact List.mem_cons_of_mem _ (ih j (by simpa using hit))

theorem foldl_addTransition_good (f g : Nat → String) (idxs : List Nat) :
    ∀ (t : TransMap), (∀ i ∈ idxs, ¬ g i = startTok ∧ ¬ g i = endTok) → GoodMap t →
      GoodMap (idxs.foldl (fun t i => addTransition t (f i) (g i)) t) := by
  induction idxs with
  | nil =>
    intro t _ ht
    exact ht
  | cons i rest ih =>
    intro t hg ht
    rw [List.foldl_cons]
    exact ih _ (fun j hj => hg j (List.mem_cons_of_mem _ hj))
      (addTransition_good t (f i) (g i) ht (hg i (List.mem_cons_self _ _)))

theorem train_good (m : MarkovModel) (h1 : 1 ≤ m.order) (tokens : List String)
    (hfree : ∀ tok ∈ tokens, ¬ tok = startTok ∧ ¬ tok = endTok)
    (hm : GoodMap m.transitions) : GoodMap (train m tokens).transitions := by
  unfold train
  by_cases h : tokens = []
  · simpa [h] using hm
  · simp only [h, if_false]
    exact foldl_addTransition_good
      (fun i => windowState m.order (fullSequence m.order tokens) i)
      (fun i => windowNext m.order (fullSequence m.order tokens) i)
      (List.range ((fullSequence m.order tokens).length - m.order)) m.transitions
      (fun i hi => hfree _ (windowNext_mem m.order h1 tokens i (List.mem_range.mp hi))) hm

theorem getDistribution_pos (m : MarkovModel) (hm : GoodMap m.transitions) (state : String) :
    ∀ p ∈ getDistribution m state, (¬ p.1 = startTok ∧ ¬ p.1 = endTok) ∧ 0 < p.2 := by
  intro p hp
  unfold getDistribution at hp
  cases hg : getA m.transitions state with
  | none => rw [hg] at hp; simp at hp
  | some inner =>
    rw [hg] at hp
    dsimp only at hp
    by_cases ht : ((inner.map (fun p => p.2)).sum : Int) = 0
    · rw [if_pos ht] at hp
      simp at hp
    · rw [if_neg ht] at hp
      obtain ⟨q, hq, hqe⟩ := List.mem_map.mp hp
      have hqprops := hm state inner hg q hq
      have hsumnn : (0 : Int) ≤ (inner.map (fun p => p.2)).sum := by
        apply List.sum_nonneg
        intro x hx
        obtain ⟨y, hy, hye⟩ := List.mem_map.mp hx
        rw [← hye]
        have h12 := (hm state inner hg y hy).2
        omega
      have htotpos : 0 < ((inner.map (fun p => p.2)).sum : Int) :=
        lt_of_le_of_ne hsumnn (Ne.symm ht)
      rw [← hqe]
      refine ⟨hqprops.1, ?_⟩
      have hq2 : (0 : ℚ) < (q.2 : ℚ) := by
        have := hqprops.2
        exact_mod_cast lt_of_lt_of_le zero_lt_one (by exact_mod_cast this)
      have htot : (0 : ℚ) < (((inner.map (fun p => p.2)).sum : Int) : ℚ) := by
        exact_mod_cast htotpos
      exact div_pos hq2 htot

theorem mem_insDesc (x p : String × ℚ) (l : List (String × ℚ)) :
    x ∈ insDesc p l ↔ x = p ∨ x ∈ l := by
  induction l with
  | nil => simp [insDesc]
  | cons q qs ih =>
    unfold insDesc
    by_cases hc : p.2 < q.2
    · rw [if_pos hc]
      simp only [List.mem_cons, ih]
      tauto
    · rw [if_neg hc]
      simp only [List.mem_cons]

theorem mem_sortDesc (x : String × ℚ) (l : List (String × ℚ)) :
    x ∈ sortDesc l ↔ x ∈ l := by
  induction l with
  | nil => simp [sortDesc]
  | cons p ps ih =>
    rw [sortDesc_cons, mem_insDesc, ih]
    simp

theorem pickWeighted_mem (items : List (String × ℚ)) (y : ℚ) (h : items ≠ []) :
    pickWeighted y items ∈ items.map (fun p => p.1) := by
  induction items generalizing y with
  | nil => exact absurd rfl h
  | cons q rest ih =>
    cases rest with
    | nil => simp [pickWeighted]
    | cons q2 qs =>
      unfold pickWeighted
      by_cases hc : y < q.2
      · rw [if_pos hc]
        simp
      · rw [if_neg hc]
        exact List.mem_cons_of_mem _ (ih (y - q.2) (by simp))

theorem weightedChoice_mem (items : List (String × ℚ)) (r : ℚ) (h : items ≠ []) :
    weightedChoice items r ∈ items.map (fun p => p.1) :=
  pickWeighted_mem items _ h

theorem sampleBody_mem (pw : ℚ → ℚ → ℚ) (temperature r : ℚ) (keys : List String)
    (d1 : List (String × ℚ)) (hne : d1 ≠ []) (hkeys : ∀ p ∈ d1, p.1 ∈ keys) :
    (if temperature ≤ 0 then (maxByProb d1).1
     else weightedChoice
       (if temperature = 1 then d1
        else
          if 0 < (((d1.filter (fun p => 0 < p.2)).map
              (fun p => (p.1, pw p.2 (1 / temperature)))).map (fun p => p.2)).sum
          then ((d1.filter (fun p => 0 < p.2)).map
              (fun p => (p.1, pw p.2 (1 / temperature)))).map
            (fun p => (p.1, p.2 / (((d1.filter (fun p => 0 < p.2)).map
              (fun p => (p.1, pw p.2 (1 / temperature)))).map (fun p => p.2)).sum))
          else d1) r) ∈ keys := by
  split_ifs with h1 h2 h3
  · exact hkeys _ (maxByProb_mem d1 hne)
  · obtain ⟨q, hq, hqe⟩ := List.mem_map.mp (weightedChoice_mem d1 r hne)
    rw [← hqe]
    exact hkeys q hq
  · have hadjne : (d1.filter (fun p => 0 < p.2)).map
        (fun p => (p.1, pw p.2 (1 / temperature))) ≠ [] := by
      intro hempty
      rw [hempty] at h3
      simp at h3
    have hmapne : (((d1.filter (fun p => 0 < p.2)).map
        (fun p => (p.1, pw p.2 (1 / temperature)))).map
        (fun p => (p.1, p.2 / (((d1.filter (fun p => 0 < p.2)).map
          (fun p => (p.1, pw p.2 (1 / temperature)))).map (fun p => p.2)).sum))) ≠ [] := by
      simpa using hadjne
    obtain ⟨q, hq, hqe⟩ := List.mem_map.mp (weightedChoice_mem _ r hmapne)
    obtain ⟨q2, hq2, hq2e⟩ := List.mem_map.mp hq
    obtain ⟨q3, hq3, hq3e⟩ := List.mem_map.mp hq2
    rw [← hqe, ← hq2e, ← hq3e]
    exact hkeys q3 (List.mem_of_mem_filter hq3)
  · obtain ⟨q, hq, hqe⟩ := List.mem_map.mp (weightedChoice_mem d1 r hne)
    rw [← hqe]
    exact hkeys q hq

theorem sampleToken_mem (pw : ℚ → ℚ → ℚ) (dist : List (String × ℚ)) (temperature : ℚ)
    (topK : Option Nat) (r : ℚ) (hne : dist ≠ [])
    (hk : ∀ k, topK = some k → 1 ≤ k) :
    sampleToken pw dist temperature topK r ∈ dist.map (fun p => p.1) := by
  unfold sampleToken
  rw [if_neg hne]
  cases topK with
  | none =>
    exact sampleBody_mem pw temperature r _ dist hne (fun p hp => List.mem_map_of_mem _ hp)
  | some k =>
    have hk1 : 1 ≤ k := hk k rfl
    obtain ⟨hd, tl, hsd⟩ : ∃ hd tl, sortDesc dist = hd :: tl := by
      cases hsd2 : sortDesc dist with
      | nil => exact absurd hsd2 (sortDesc_ne_nil dist hne)
      | cons hd tl => exact ⟨hd, tl, rfl⟩
    have htk : (sortDesc dist).take k ≠ [] := by
      rw [hsd]
      cases k with
      | zero => omega
      | succ k2 => simp
    have hd1ne : ((sortDesc dist).take k).map
        (fun p => (p.1, p.2 / ((((sortDesc dist).take k).map (fun p => p.2)).sum))) ≠ [] := by
      simpa using htk
    have hd1keys : ∀ p ∈ ((sortDesc dist).take k).map
        (fun p => (p.1, p.2 / ((((sortDesc dist).take k).map (fun p => p.2)).sum))),
          p.1 ∈ dist.map (fun p => p.1) := by
      intro p hp
      obtain ⟨q, hq, hqe⟩ := List.mem_map.mp hp
      rw [← hqe]
      dsimp only
      exact List.mem_map_of_mem _
        ((mem_sortDesc q dist).mp (List.take_subset k (sortDesc dist) hq))
    exact sampleBody_mem pw temperature r _ _ hd1ne hd1keys

theorem genLoop_bound (pw : ℚ → ℚ → ℚ) (ex : ℚ → ℚ) (m : MarkovModel) (temperature : ℚ)
    (topK : Option Nat) (recommendedTokens : Option Int) (rng : Nat → ℚ)
    (hm : GoodMap m.transitions) (hk : ∀ k, topK = some k → 1 ≤ k) :
    ∀ (fuel : Nat) (state : String) (emitted : Nat),
      (genLoop pw ex m temperature topK recommendedTokens rng fuel state emitted).length ≤ fuel
      ∧ ∀ tok ∈ genLoop pw ex m temperature topK recommendedTokens rng fuel state emitted,
          ¬ tok = startTok ∧ ¬ tok = endTok := by
  intro fuel
  induction fuel with
  | zero =>
    intro state emitted
    constructor
    · simp [genLoop]
    · intro tok htok
      simp [genLoop] at htok
  | succ f ih =>
    intro state emitted
    by_cases hd : getDistribution m state = []
    · constructor
      · simp [genLoop, hd]
      · intro tok htok
        simp [genLoop, hd] at htok
    · have hdk := getDistribution_pos m hm state
      have hnoend : getA (getDistribution m state) endTok = none := by
        cases hge : getA (getDistribution m state) endTok with
        | none => rfl
        | some v =>
          have hmem := getA_some_mem hge
          have hcontra := (hdk (endTok, v) hmem).1.2
          simp at hcontra
      have hbias : ∀ (rt : Option Int), (match rt with
          | some recLen =>
            if ¬ getA (getDistribution m state) endTok = none
            then applyLengthBias ex (getDistribution m state) emitted recLen
            else getDistribution m state
          | none => getDistribution m state) = getDistribution m state := by
        intro rt
        cases rt with
        | none => rfl
        | some recLen =>
          show (if ¬ getA (getDistribution m state) endTok = none
              then applyLengthBias ex (getDistribution m state) emitted recLen
              else getDistribution m state) = getDistribution m state
          rw [if_neg (not_not_intro hnoend)]
      have hnext := sampleToken_mem pw (getDistribution m state) temperature topK
        (rng emitted) hd hk
      obtain ⟨q, hq, hqe⟩ := List.mem_map.mp hnext
      have hqprops := hdk q hq
      have hnotend : ¬ sampleToken pw (getDistribution m state) temperature topK
          (rng emitted) = endTok := by
        rw [← hqe]
        exact hqprops.1.2
      have hgen : genLoop pw ex m temperature topK recommendedTokens rng (f + 1) state emitted
          = sampleToken pw (getDistribution m state) temperature topK (rng emitted)
            :: genLoop pw ex m temperature topK recommendedTokens rng f
              (shiftState state
                (sampleToken pw (getDistribution m state) temperature topK (rng emitted)))
              (emitted + 1) := by
        simp only [genLoop]
        rw [if_neg hd, hbias recommendedTokens, if_neg hnotend]
      rw [hgen]
      constructor
      · simp only [List.length_cons]
        have hlen := (ih (shiftState state
          (sampleToken pw (getDistribution m state) temperature topK (rng emitted)))
          (emitted + 1)).1
        omega
      · intro tok htok
        rcases List.mem_cons.mp htok with h | h
        · rw [h, ← hqe]
          exact hqprops.1
        · exact (ih _ _).2 tok h

theorem foldl_train_order (corpus : List (List String)) (m : MarkovModel) :
    (corpus.foldl train m).order = m.order := by
  induction corpus generalizing m with
  | nil => rfl
  | cons l rest ih =>
    rw [List.foldl_cons, ih, train_order]

theorem foldl_train_good (corpus : List (List String)) :
    ∀ (m : MarkovModel), 1 ≤ m.order →
      (∀ l ∈ corpus, ∀ tok ∈ l, ¬ tok = startTok ∧ ¬ tok = endTok) →
      GoodMap m.transitions → GoodMap (corpus.foldl train m).transitions := by
  induction corpus with
  | nil =>
    intro m _ _ hm
    exact hm
  | cons l rest ih =>
    intro m h1 hfree hm
    rw [List.foldl_cons]
    refine ih (train m l) ?_ ?_ ?_
    · rw [train_order]
      exact h1
    · exact fun l2 hl2 => hfree l2 (List.mem_cons_of_mem _ hl2)
    · exact train_good m h1 l (hfree l (List.mem_cons_self _ _)) hm

/-- C10: for a model trained only through `train` on sentinel-free token
lists, the sentinels never occur as a next-token of any state (START tokens
occupy only the first `order−1` padded positions, so every counted window's
next element lies in the trained tokens; the END window is excluded by the
loop bound), and `generate` — for every seed state, token budget,
temperature, top-k ≥ 1, recommended length, random source, and float
primitives — returns at most `maxTokens` tokens and never emits `<START>` or
`<END>` (a drawn END only terminates generation). -/
theorem generate_bounded_and_sentinel_free (order : Nat) (h1 : 1 ≤ order)
    (corpus : List (List String))
    (hfree : ∀ l ∈ corpus, ∀ tok ∈ l, ¬ tok = startTok ∧ ¬ tok = endTok)
    (seedState : String) (maxTokens : Nat) (temperature : ℚ) (topK : Option Nat)
    (hk : ∀ k, topK = some k → 1 ≤ k) (recommendedTokens : Option Int)
    (rng : Nat → ℚ) (pw : ℚ → ℚ → ℚ) (ex : ℚ → ℚ) :
    (∀ state next, 0 < countT (corpus.foldl train (emptyModel order)).transitions state next →
        ¬ next = startTok ∧ ¬ next = endTok)
    ∧ (generate pw ex (corpus.foldl train (emptyModel order)) seedState maxTokens temperature
        topK recommendedTokens rng).length ≤ maxTokens
    ∧ ∀ tok ∈ generate pw ex (corpus.foldl train (emptyModel order)) seedState maxTokens
        temperature topK recommendedTokens rng, ¬ tok = startTok ∧ ¬ tok = endTok := by
  have hgood : GoodMap (corpus.foldl train (emptyModel order)).transitions := by
    refine foldl_train_good corpus (emptyModel order) h1 hfree ?_
    intro s inner hg
    simp [emptyModel, getA] at hg
  refine ⟨?_, ?_, ?_⟩
  · intro state next hpos
    unfold countT at hpos
    cases hg : getA (corpus.foldl train (emptyModel order)).transitions state with
    | none => rw [hg] at hpos; simp at hpos
    | some inner =>
      rw [hg] at hpos
      have hpos2 : 0 < (getA inner next).getD 0 := hpos
      cases hgi : getA inner next with
      | none => rw [hgi] at hpos2; simp at hpos2
      | some c => exact (hgood state inner hg (next, c) (getA_some_mem hgi)).1
  · unfold generate
    exact (genLoop_bound pw ex _ temperature topK recommendedTokens rng hgood hk
      maxTokens _ 0).1
  · unfold generate
    exact (genLoop_bound pw ex _ temperature topK recommendedTokens rng hgood hk
      maxTokens _ 0).2

theorem generate_bounded_and_sentinel_free_witness :
    ((1 ≤ 2)
      ∧ (∀ l ∈ [["a", "b"]], ∀ tok ∈ l, ¬ tok = startTok ∧ ¬ tok = endTok)
      ∧ (∀ k, (none : Option Nat) = some k → 1 ≤ k))
    ∧ ((∀ state next,
          0 < countT ([["a", "b"]].foldl train (emptyModel 2)).transitions state next →
            ¬ next = startTok ∧ ¬ next = endTok)
      ∧ (generate (fun a _ => a) (fun x => x) ([["a", "b"]].foldl train (emptyModel 2)) ""
            3 1 none none (fun _ => 0)).length ≤ 3
      ∧ ∀ tok ∈ generate (fun a _ => a) (fun x => x) ([["a", "b"]].foldl train (emptyModel 2))
            "" 3 1 none none (fun _ => 0), ¬ tok = startTok ∧ ¬ tok = endTok) :=
  ⟨⟨by decide, by decide, fun k h => Option.noConfusion h⟩,
    generate_bounded_and_sentinel_free 2 (by decide) [["a", "b"]] (by decide) "" 3 1 none
      (fun k h => Option.noConfusion h) none (fun _ => 0) (fun a _ => a) (fun x => x)⟩

end OllamaMarkov
